import Mathlib

/-!
# Verification of the agc OTU-clustering pipeline (src/agc/agc.py)

Shallow embedding of the pipeline functions of `agc.py`:
`read_fasta`, `dereplication_fulllength`, `get_chunks`, `cut_kmer`,
`get_unique_kmer`, `search_mates`, `common`, `get_identity`,
`detect_chimera`, `chimera_removal` and `abundance_greedy_clustering`.

Modelling conventions:
* nucleotide sequences are `List Char`; a FASTA file is a `List (List Char)`
  of its lines (without trailing newlines);
* Python exceptions are modelled with `Except PyErr`;
* Python `float` arithmetic is idealised: percent identities are exact
  rationals and `statistics.stdev` is the exact real square root of the
  sample variance;
* the external pairwise aligner `nw.global_align` is an oracle parameter
  `align : Seq → Seq → Seq × Seq` returning the two gapped aligned strings
  (of equal length, per the alignment-oracle contract);
* Python dicts are association lists kept in insertion order.
-/

namespace Agc

/-- The Python exceptions the modelled code can raise:
`ValueError` (raised by `get_chunks`), `StatisticsError`
(raised by `statistics.stdev` on fewer than two data points),
`ZeroDivisionError` (division by a zero denominator) and
`TypeError` (using an unhashable list as a dict key). -/
inductive PyErr where
  | valueError
  | statisticsError
  | zeroDivisionError
  | typeError
  deriving DecidableEq, Repr

/-- A nucleotide sequence, as the list of its characters. -/
abbrev Seq := List Char

/-- The characters removed by Python's `str.strip()`. -/
def pySpaceChar (c : Char) : Bool :=
  c == ' ' || c == '\t' || c == '\n' || c == '\r' || c == '\x0b' || c == '\x0c'

/-- Python `line.strip()` on a line of characters. -/
def pyStrip (l : List Char) : List Char :=
  ((l.dropWhile pySpaceChar).reverse.dropWhile pySpaceChar).reverse

/-- Python `line.startswith(">")`. -/
def startsWithGt (l : List Char) : Bool :=
  match l with
  | [] => false
  | c :: _ => c == '>'

/-- The loop of `read_fasta` (agc.py lines 89-99, the uncompressed branch;
the gzip branch at lines 76-87 is line-for-line identical after
decompression): `seq` accumulates stripped non-header lines; on a header
line the accumulated sequence is yielded if it has length at least
`minseqlen`; after the last line the accumulated sequence is yielded
unconditionally. -/
def read_fasta_go (minseqlen : Nat) : List (List Char) → Seq → List Seq
  | [], seq => [seq]
  | line :: rest, seq =>
    if startsWithGt line then
      (if minseqlen ≤ seq.length then [seq] else []) ++ read_fasta_go minseqlen rest []
    else
      read_fasta_go minseqlen rest (seq ++ pyStrip line)

/-- `read_fasta(amplicon_file, minseqlen)` (agc.py lines 73-99): the list of
sequences the generator yields, the file being given as its list of lines. -/
def read_fasta (lines : List (List Char)) (minseqlen : Nat) : List Seq :=
  read_fasta_go minseqlen lines []

/-- One step of the counting loop of `dereplication_fulllength`
(agc.py lines 107-111): bump the count of `s` in the insertion-ordered
dict, adding the key at the end if absent. -/
def incr : List (Seq × Nat) → Seq → List (Seq × Nat)
  | [], s => [(s, 1)]
  | (t, n) :: d, s => if t = s then (t, n + 1) :: d else (t, n) :: incr d s

/-- The counting loop of `dereplication_fulllength` (agc.py lines 107-111):
fold `incr` over the sequences read from the file. -/
def countSeqs : List Seq → List (Seq × Nat) → List (Seq × Nat)
  | [], d => d
  | s :: rest, d => countSeqs rest (incr d s)

/-- Insert one element into a list already sorted by non-increasing second
component, after all entries with a greater-or-equal second component.
This is the elementary step realising Python's stable
`sorted(..., key=lambda x: x[1], reverse=True)`. -/
def insertByCount {α : Type} (x : α × Nat) : List (α × Nat) → List (α × Nat)
  | [] => [x]
  | y :: ys => if x.2 ≤ y.2 then y :: insertByCount x ys else x :: y :: ys

/-- Stable sort by non-increasing second component: Python's
`sorted(items, key=lambda x: x[1], reverse=True)` (agc.py line 113),
which keeps the original (insertion) order among equal counts. -/
def sortByCountDesc {α : Type} (l : List (α × Nat)) : List (α × Nat) :=
  l.foldl (fun acc x => insertByCount x acc) []

/-- `dereplication_fulllength(amplicon_file, minseqlen, mincount)`
(agc.py lines 102-115): count identical sequences, sort the dict items by
descending count (stable), and keep those with count at least `mincount`. -/
def dereplication_fulllength (lines : List (List Char)) (minseqlen mincount : Nat) :
    List (Seq × Nat) :=
  (sortByCountDesc (countSeqs (read_fasta lines minseqlen) [])).filter
    (fun p => decide (mincount ≤ p.2))

/-- Python `range(0, stop, step)` for `step ≥ 1`: the multiples of `step`
below `stop`.  (`range` with step `0` raises in Python; all theorems about
`get_chunks` assume `1 ≤ chunk_size`.) -/
def pyRange (stop step : Nat) : List Nat :=
  (List.range ((stop + step - 1) / step)).map (fun i => i * step)

/-- `get_chunks(sequence, chunk_size)` (agc.py lines 118-130): keep the
slice `sequence[i:i+chunk_size]` for each multiple `i` of `chunk_size` with
`i + chunk_size` strictly below the sequence length, return the list if it
has at least 4 chunks and raise `ValueError` otherwise. -/
def get_chunks (sequence : Seq) (chunk_size : Nat) : Except PyErr (List Seq) :=
  let list_sub_seq := (pyRange sequence.length chunk_size).filterMap
    (fun i => if i + chunk_size < sequence.length
              then some ((sequence.drop i).take chunk_size) else none)
  if 4 ≤ list_sub_seq.length then Except.ok list_sub_seq
  else Except.error PyErr.valueError

/-- `cut_kmer(sequence, kmer_size)` (agc.py lines 145-149): the slices
`sequence[i:i+kmer_size]` for `i` in `range(0, len(sequence)-kmer_size+1)`
(in `Nat`, `len + 1 - kmer_size` is that count, truncated at zero). -/
def cut_kmer (sequence : Seq) (kmer_size : Nat) : List Seq :=
  (List.range (sequence.length + 1 - kmer_size)).map
    (fun i => (sequence.drop i).take kmer_size)

/-- The k-mer dict: insertion-ordered association list from k-mer to the
list of reference sequence ids (duplicates allowed). -/
abbrev KDict := List (Seq × List Nat)

/-- Dict lookup: `kmer_dict[kmer]` when present. -/
def kdFind : KDict → Seq → Option (List Nat)
  | [], _ => none
  | (k, v) :: d, kmer => if k = kmer then some v else kdFind d kmer

/-- One step of `get_unique_kmer` (agc.py lines 155-159): append `i` to the
id list of `kmer`, creating the entry (at the end, in dict insertion order)
if the key is absent. -/
def kdAdd (d : KDict) (kmer : Seq) (i : Nat) : KDict :=
  match d with
  | [] => [(kmer, [i])]
  | (k, v) :: rest =>
    if k = kmer then (k, v ++ [i]) :: rest else (k, v) :: kdAdd rest kmer i

/-- `get_unique_kmer(kmer_dict, sequence, id_seq, kmer_size)`
(agc.py lines 152-161): record `id_seq` under every k-mer of `sequence`. -/
def get_unique_kmer (kmer_dict : KDict) (sequence : Seq) (id_seq kmer_size : Nat) : KDict :=
  (cut_kmer sequence kmer_size).foldl (fun d kmer => kdAdd d kmer id_seq) kmer_dict

/-- First-occurrence deduplication with an accumulator of already-seen
elements (structural recursion, so that it evaluates by kernel reduction). -/
def uniqFirstAux {α : Type} [DecidableEq α] : List α → List α → List α
  | [], _ => []
  | a :: l, seen =>
    if a ∈ seen then uniqFirstAux l seen else a :: uniqFirstAux l (seen ++ [a])

/-- The distinct elements of `l` in order of first occurrence: the iteration
order of a Python `Counter`/dict built by scanning `l`. -/
def uniqFirst {α : Type} [DecidableEq α] (l : List α) : List α :=
  uniqFirstAux l []

/-- `Counter(l).most_common(n)`: the `n` most frequent elements of `l`,
by descending count, ties kept in first-encountered order
(CPython documents exactly this stable tie behaviour). -/
def most_common (n : Nat) (l : List Nat) : List Nat :=
  ((sortByCountDesc ((uniqFirst l).map (fun x => (x, l.count x)))).take n).map Prod.fst

/-- `search_mates(kmer_dict, sequence, kmer_size)` (agc.py lines 164-169):
collect, with multiplicity, every id stored under any k-mer of `sequence`
present in the dict, and return the 8 most common ids. -/
def search_mates (kmer_dict : KDict) (sequence : Seq) (kmer_size : Nat) : List Nat :=
  most_common 8 ((cut_kmer sequence kmer_size).flatMap
    (fun kmer => match kdFind kmer_dict kmer with
                 | some ids => ids
                 | none => []))

/-- `common(lst1, lst2)` (agc.py lines 139-142): `list(set(lst1) & set(lst2))`.
CPython's set iteration order is hash-dependent; the claims verified here
depend only on the membership and cardinality of this value, which the
deterministic representative below (first-occurrence order of `lst1`)
shares with the Python value. -/
def common (lst1 lst2 : List Nat) : List Nat :=
  (uniqFirst lst1).filter (fun x => decide (x ∈ lst2))

/-- `get_identity(alignment_list)` (agc.py lines 172-179): the percentage of
positions at which the two aligned strings agree.  The Python loop runs over
the positions of the first string and indexes both; the alignment-oracle
contract guarantees the two strings have equal length, under which the loop
equals position-wise comparison of the zipped strings.  Division by a zero
length (Python `ZeroDivisionError`) never occurs on oracle output; `ℚ`
division by zero returns `0` here. -/
def get_identity (alignment : Seq × Seq) : ℚ :=
  (((alignment.1.zip alignment.2).countP (fun p => decide (p.1 = p.2)) : ℚ)
    / (alignment.1.length : ℚ)) * 100

/-- The arithmetic mean used by `statistics.stdev`. -/
def pyMean (xs : List ℚ) : ℚ := xs.sum / (xs.length : ℚ)

/-- The sample variance `Σ (x - mean)² / (n - 1)` used by `statistics.stdev`
(meaningful for `n ≥ 2`, which `stdev` checks before using it). -/
def sampleVariance (xs : List ℚ) : ℚ :=
  (xs.map (fun x => (x - pyMean xs) ^ 2)).sum / ((xs.length : ℚ) - 1)

/-- `statistics.stdev(xs)`: raises `StatisticsError` on fewer than two data
points, otherwise the square root of the sample variance. -/
noncomputable def stdev (xs : List ℚ) : Except PyErr ℝ :=
  if xs.length < 2 then Except.error PyErr.statisticsError
  else Except.ok (Real.sqrt ((sampleVariance xs : ℚ) : ℝ))

/-- The sample standard deviation of two identity scores, written directly
from the spec's words ("compute, per row, the sample standard deviation
between the two identity scores"): the square root of the two scores'
squared deviations from their mean, divided by `2 - 1`. -/
noncomputable def stdevPair (a b : ℚ) : ℝ :=
  Real.sqrt ((((a : ℝ) - ((a : ℝ) + (b : ℝ)) / 2) ^ 2
    + ((b : ℝ) - ((a : ℝ) + (b : ℝ)) / 2) ^ 2) / 1)

/-- The row loop of `detect_chimera` (agc.py lines 186-194): accumulate the
sum of per-row standard deviations and the two flags
`row[0] > row[1]` / `row[1] > row[0]`; a `StatisticsError` raised by
`statistics.stdev` aborts the loop. -/
noncomputable def detect_chimera_loop :
    List (List ℚ) → ℝ → Bool → Bool → Except PyErr (ℝ × Bool × Bool)
  | [], s, b1, b2 => Except.ok (s, b1, b2)
  | row :: rest, s, b1, b2 =>
    match stdev row with
    | Except.error e => Except.error e
    | Except.ok sd =>
      detect_chimera_loop rest (s + sd)
        (b1 || decide (row.getD 1 0 < row.getD 0 0))
        (b2 || decide (row.getD 0 0 < row.getD 1 0))

/-- `detect_chimera(perc_identity_matrix)` (agc.py lines 182-199): run the
row loop, then declare chimeric iff the mean of the per-row standard
deviations exceeds 5 and both direction flags are set.  On the empty matrix
the Python division `sum_stdev / len(...)` raises `ZeroDivisionError`. -/
noncomputable def detect_chimera (perc_identity_matrix : List (List ℚ)) :
    Except PyErr Bool :=
  match detect_chimera_loop perc_identity_matrix 0 false false with
  | Except.error e => Except.error e
  | Except.ok (sum_stdev, bool1, bool2) =>
    if perc_identity_matrix.length = 0 then Except.error PyErr.zeroDivisionError
    else Except.ok
      (decide ((5 : ℝ) < sum_stdev / (perc_identity_matrix.length : ℝ)) && bool1 && bool2)

/-- The call `search_mates(kmer_dict, amplicon, kmer_size)` as issued by
`chimera_removal` at agc.py line 212: the second argument is `amplicon`,
the two-element Python list `[sequence, count]` produced by
`dereplication_fulllength` — not a chunk and not even a string.  Inside
`search_mates`, `cut_kmer` then slices that two-element list:
`range(0, 2 - kmer_size + 1)` is empty for `kmer_size ≥ 3`, so no k-mer is
collected, the dict is never consulted, and the result is
`most_common(8)` of the empty collection; for `kmer_size ≤ 2` the slices
are unhashable lists and the dict membership test raises `TypeError`.
Neither `kmer_dict` nor the amplicon's contents can influence the result. -/
def search_mates_amplicon (kmer_dict : KDict) (amplicon : Seq × Nat) (kmer_size : Nat) :
    Except PyErr (List Nat) :=
  if 2 + 1 - kmer_size = 0 then Except.ok (most_common 8 [])
  else Except.error PyErr.typeError

/-- The percent-identity matrix construction and chimera verdict of
`chimera_removal` (agc.py lines 218-227), executed when more than one
common candidate id exists: for each of the first two common ids, chunk
the referenced non-chimeric sequence (a raised `ValueError` propagates) and
align each chunk of the candidate against the same-ranked chunk of the
parent; the matrix row `j` collects the two identities of chunk `j`.
`.getD` stands in for Python list indexing, in range in all executed
paths. -/
noncomputable def perc_matrix_verdict (align : Seq → Seq → Seq × Seq) (chunk_size : Nat)
    (list_non_chimere : List Seq) (common_id : List Nat) (chunks : List Seq) :
    Except PyErr Bool :=
  match (common_id.take 2).mapM (fun one_id =>
      match get_chunks (list_non_chimere.getD one_id []) chunk_size with
      | Except.error e => Except.error e
      | Except.ok db_seq => Except.ok
          (chunks.enum.map (fun (p : Nat × Seq) =>
            get_identity (align p.2 (db_seq.getD p.1 []))))) with
  | Except.error e => Except.error e
  | Except.ok cols =>
    detect_chimera ((List.range chunks.length).map
      (fun j => cols.map (fun (col : List ℚ) => col.getD j 0)))

/-- The per-amplicon loop of `chimera_removal` (agc.py lines 209-235), a
recursion over the dereplicated amplicons carrying the mutable state
(`list_non_chimere`, `kmer_dict`, `id_ref`): chunk the sequence (a raised
`ValueError` propagates and aborts the run), query `search_mates` once per
chunk — with `amplicon`, not the chunk (line 212) —, intersect the
candidate lists, run the chimera test when more than one common candidate
remains, and yield non-chimeric amplicons while feeding them to the k-mer
dict and the reference list. -/
noncomputable def chimera_removal_go (align : Seq → Seq → Seq × Seq)
    (chunk_size kmer_size : Nat) :
    List (Seq × Nat) → List Seq → KDict → Nat → Except PyErr (List (Seq × Nat))
  | [], _, _, _ => Except.ok []
  | (s, c) :: rest, list_non_chimere, kmer_dict, id_ref =>
    match get_chunks s chunk_size with
    | Except.error e => Except.error e
    | Except.ok chunks =>
      match chunks.mapM (fun _chunk => search_mates_amplicon kmer_dict (s, c) kmer_size) with
      | Except.error e => Except.error e
      | Except.ok mates =>
        let common_id := (mates.drop 2).foldl common (common (mates.getD 0 []) (mates.getD 1 []))
        match (if 1 < common_id.length then
                 perc_matrix_verdict align chunk_size list_non_chimere common_id chunks
               else Except.ok false) with
        | Except.error e => Except.error e
        | Except.ok is_chim =>
          if is_chim then
            chimera_removal_go align chunk_size kmer_size rest list_non_chimere kmer_dict id_ref
          else
            match chimera_removal_go align chunk_size kmer_size rest
                (list_non_chimere ++ [s]) (get_unique_kmer kmer_dict s id_ref kmer_size)
                (id_ref + 1) with
            | Except.error e => Except.error e
            | Except.ok out => Except.ok ((s, c) :: out)

/-- `chimera_removal(amplicon_file, minseqlen, mincount, chunk_size,
kmer_size)` (agc.py lines 202-235): the list of amplicons the generator
yields, starting from empty state. -/
noncomputable def chimera_removal (align : Seq → Seq → Seq × Seq)
    (lines : List (List Char)) (minseqlen mincount chunk_size kmer_size : Nat) :
    Except PyErr (List (Seq × Nat)) :=
  chimera_removal_go align chunk_size kmer_size
    (dereplication_fulllength lines minseqlen mincount) [] [] 0

/-- One iteration of the clustering loop of `abundance_greedy_clustering`
(agc.py lines 244-262): the first amplicon opens a cluster; afterwards
every existing cluster whose representative aligns with the amplicon at
identity above 97 gets the amplicon's count added (the Python loop has no
`break`, so the scan never stops early), and a new cluster is appended
only when no cluster qualified. -/
def greedyStep (align : Seq → Seq → Seq × Seq) (greedy_cluster : List (Seq × Nat))
    (amplicon : Seq × Nat) : List (Seq × Nat) :=
  match greedy_cluster with
  | [] => [amplicon]
  | _ :: _ =>
    let updated := greedy_cluster.map (fun tupple =>
      if 97 < get_identity (align amplicon.1 tupple.1)
      then (tupple.1, tupple.2 + amplicon.2) else tupple)
    if greedy_cluster.any (fun tupple => decide (97 < get_identity (align amplicon.1 tupple.1)))
    then updated else updated ++ [amplicon]

/-- `abundance_greedy_clustering(amplicon_file, minseqlen, mincount,
chunk_size, kmer_size)` (agc.py lines 238-264): fold the clustering step
over the chimera-filtered amplicons; an exception raised while the
generator is consumed propagates. -/
noncomputable def abundance_greedy_clustering (align : Seq → Seq → Seq × Seq)
    (lines : List (List Char)) (minseqlen mincount chunk_size kmer_size : Nat) :
    Except PyErr (List (Seq × Nat)) :=
  match chimera_removal align lines minseqlen mincount chunk_size kmer_size with
  | Except.error e => Except.error e
  | Except.ok amplicon_list => Except.ok (amplicon_list.foldl (greedyStep align) [])

/-- An alignment oracle that inserts no gaps: it returns the two sequences
unchanged.  (The claims about the clustering control flow hold for every
oracle; concrete witnesses instantiate one.) -/
def trivialAlign (a b : Seq) : Seq × Seq := (a, b)

/-- An alignment oracle under which the amplicon `AAAAT` aligns perfectly
against any representative while all other pairs are aligned without
gaps. -/
def alignCE (a b : Seq) : Seq × Seq :=
  if a = "AAAAT".toList then (a, a) else (a, b)

/-- A FASTA input (as lines) with `AAAAA` twelve times, `TTTTT` eleven
times and `AAAAT` ten times. -/
def linesC2 : List (List Char) :=
  (List.replicate 12 [['>'], "AAAAA".toList]).flatten ++
  (List.replicate 11 [['>'], "TTTTT".toList]).flatten ++
  (List.replicate 10 [['>'], "AAAAT".toList]).flatten

/-- A FASTA input (as lines) with the 3-character sequence `AAA` twelve
times and the 5-character sequence `AAAAA` ten times. -/
def linesC4 : List (List Char) :=
  (List.replicate 12 [['>'], "AAA".toList]).flatten ++
  (List.replicate 10 [['>'], "AAAAA".toList]).flatten

/-- A FASTA input (as lines) with `AAAAA` twelve times. -/
def linesC10 : List (List Char) :=
  (List.replicate 12 [['>'], "AAAAA".toList]).flatten

/-! ## Chunking: auxiliary lemmas -/

lemma filterMap_range_if {β : Type} (f : Nat → β) (t : Nat) :
    ∀ K : Nat, (List.range K).filterMap (fun j => if j < t then some (f j) else none)
      = (List.range (min t K)).map f := by
  intro K
  induction K with
  | zero => simp
  | succ K ih =>
    rw [List.range_succ, List.filterMap_append]
    by_cases hK : K < t
    · have hmin : min t (K + 1) = K + 1 := by omega
      have hminK : min t K = K := by omega
      rw [hmin, List.range_succ, List.map_append, ih, hminK]
      simp [hK]
    · have hmin : min t (K + 1) = min t K := by omega
      rw [hmin, ih]
      simp [hK]

/-- The kept slices of `get_chunks`: exactly the slices at the first
`(len - 1) / chunk_size` chunk starts. -/
lemma pyRange_filterMap_eq (s : Seq) (cs : Nat) (hcs : 1 ≤ cs) :
    (pyRange s.length cs).filterMap
      (fun i => if i + cs < s.length then some ((s.drop i).take cs) else none)
    = (List.range ((s.length - 1) / cs)).map (fun j => (s.drop (j * cs)).take cs) := by
  unfold pyRange
  rw [List.filterMap_map]
  have hfun : ((fun i => if i + cs < s.length then some ((s.drop i).take cs) else none)
        ∘ (fun j => j * cs))
      = (fun j => if j < (s.length - 1) / cs
                  then some ((s.drop (j * cs)).take cs) else none) := by
    funext j
    have h1 : j < (s.length - 1) / cs ↔ j * cs + cs ≤ s.length - 1 := by
      rw [Nat.lt_iff_add_one_le, Nat.le_div_iff_mul_le (show 0 < cs by omega),
        Nat.add_mul, one_mul]
    have hiff : j * cs + cs < s.length ↔ j < (s.length - 1) / cs := by
      rw [h1]; omega
    simp only [Function.comp]
    exact if_congr hiff rfl rfl
  rw [hfun, filterMap_range_if]
  have hle : (s.length - 1) / cs ≤ (s.length + cs - 1) / cs :=
    Nat.div_le_div_right (by omega)
  rw [Nat.min_eq_left hle]

/-- Closed form of `get_chunks`: for a positive chunk size it returns the
first `(len - 1) / chunk_size` chunk-size slices when there are at least
four of them, and raises `ValueError` otherwise. -/
lemma get_chunks_eq (s : Seq) (cs : Nat) (hcs : 1 ≤ cs) :
    get_chunks s cs
      = if 4 ≤ (s.length - 1) / cs
        then Except.ok
          ((List.range ((s.length - 1) / cs)).map (fun j => (s.drop (j * cs)).take cs))
        else Except.error PyErr.valueError := by
  simp only [get_chunks]
  rw [pyRange_filterMap_eq s cs hcs, List.length_map, List.length_range]

/-! ## C3 -/

set_option maxRecDepth 8000 in
/-- C3 counterexample: the claim predicts `⌊500/100⌋ = 5` chunks for a
sequence of length 500 with chunk size 100, but `get_chunks` returns only
4 chunks (its boundary test `i + chunk_size < len` is strict, dropping the
chunk that ends exactly at the sequence end). -/
theorem c3_counterexample :
    get_chunks (List.replicate 500 'A') 100
        = Except.ok (List.replicate 4 (List.replicate 100 'A'))
      ∧ (List.replicate 4 (List.replicate 100 'A')).length ≠ 500 / 100 :=
  ⟨rfl, by decide⟩

/-- C3 (amended): for every sequence of length `L` and positive chunk size
`C`, `get_chunks` returns exactly `⌊(L-1)/C⌋` chunks — `⌊L/C⌋` when `C`
does not divide `L`, one fewer when it does — each of length `C`, when
that number is at least 4, and raises `ValueError` otherwise; in
particular length 500 with chunk size 100 yields 4 chunks, and length 250
with chunk size 100 raises. -/
theorem c3_amended (s : Seq) (cs : Nat) (hcs : 1 ≤ cs) :
    (4 ≤ (s.length - 1) / cs →
        ∃ l, get_chunks s cs = Except.ok l ∧ l.length = (s.length - 1) / cs
          ∧ ∀ c ∈ l, c.length = cs)
    ∧ ((s.length - 1) / cs < 4 → get_chunks s cs = Except.error PyErr.valueError) := by
  constructor
  · intro h4
    refine ⟨_, by rw [get_chunks_eq s cs hcs, if_pos h4], ?_, ?_⟩
    · rw [List.length_map, List.length_range]
    · intro c hc
      rw [List.mem_map] at hc
      obtain ⟨j, hj, rfl⟩ := hc
      rw [List.mem_range] at hj
      have hmul : (j + 1) * cs ≤ s.length - 1 :=
        (Nat.le_div_iff_mul_le (show 0 < cs by omega)).mp (Nat.succ_le_of_lt hj)
      rw [Nat.add_mul, one_mul] at hmul
      rw [List.length_take, List.length_drop]
      omega
  · intro h4
    rw [get_chunks_eq s cs hcs, if_neg (by omega)]

/-- Witness for C3 (amended) at sequence length 500, chunk size 100. -/
theorem c3_amended_witness :
    1 ≤ 100
    ∧ ((4 ≤ ((List.replicate 500 'A' : Seq).length - 1) / 100 →
        ∃ l, get_chunks (List.replicate 500 'A') 100 = Except.ok l
          ∧ l.length = ((List.replicate 500 'A' : Seq).length - 1) / 100
          ∧ ∀ c ∈ l, c.length = 100)
      ∧ (((List.replicate 500 'A' : Seq).length - 1) / 100 < 4 →
          get_chunks (List.replicate 500 'A') 100 = Except.error PyErr.valueError)) :=
  ⟨by decide, c3_amended (List.replicate 500 'A') 100 (by decide)⟩

/-! ## C1 -/

lemma search_mates_amplicon_eq (kd : KDict) (amp : Seq × Nat) (ks : Nat) (hks : 3 ≤ ks) :
    search_mates_amplicon kd amp ks = Except.ok [] := by
  unfold search_mates_amplicon
  rw [if_pos (by omega)]
  rfl

lemma mapM_const_ok {α : Type} (v : List Nat) :
    ∀ l : List α,
      l.mapM (fun _ => (Except.ok v : Except PyErr (List Nat)))
        = Except.ok (l.map (fun _ => v))
  | [] => rfl
  | a :: l => by
    rw [List.mapM_cons, mapM_const_ok v l]
    rfl

/-- The per-chunk candidate lists computed at agc.py line 212: all equal
to `most_common 8` of the empty collection, i.e. `[]`, whatever the dict,
the amplicon and the chunks. -/
lemma mates_eq (kd : KDict) (amp : Seq × Nat) (ks : Nat) (hks : 3 ≤ ks)
    (chunks : List Seq) :
    chunks.mapM (fun _chunk => search_mates_amplicon kd amp ks)
      = Except.ok (chunks.map (fun _chunk => ([] : List Nat))) := by
  have h : (fun _chunk : Seq => search_mates_amplicon kd amp ks)
      = fun _chunk => Except.ok [] := funext fun _ => search_mates_amplicon_eq kd amp ks hks
  rw [h]
  exact mapM_const_ok [] chunks

/-- C1: the per-chunk `search_mates` calls of `chimera_removal` (line 212)
pass the whole `[sequence, count]` amplicon pair instead of the chunk, so
the candidate list of every chunk is the same — independent of the chunk's
content, of the other chunks and even of the k-mer dict — and (for any
`kmer_size ≥ 3`, in particular the default 8) empty.  The content of chunk
`j` never determines the `j`-th ranked candidate list. -/
theorem c1_queries_ignore_chunk_content (kd kd' : KDict) (amp amp' : Seq × Nat)
    (ks : Nat) (chunks chunks' : List Seq) (hks : 3 ≤ ks)
    (hlen : chunks.length = chunks'.length) :
    chunks.mapM (fun _chunk => search_mates_amplicon kd amp ks)
        = chunks'.mapM (fun _chunk => search_mates_amplicon kd' amp' ks)
    ∧ chunks.mapM (fun _chunk => search_mates_amplicon kd amp ks)
        = Except.ok (chunks.map (fun _chunk => ([] : List Nat))) := by
  refine ⟨?_, mates_eq kd amp ks hks chunks⟩
  rw [mates_eq kd amp ks hks chunks, mates_eq kd' amp' ks hks chunks']
  have h1 : chunks.map (fun _chunk => ([] : List Nat))
      = List.replicate chunks.length [] := by
    rw [← List.map_const']
  have h2 : chunks'.map (fun _chunk => ([] : List Nat))
      = List.replicate chunks'.length [] := by
    rw [← List.map_const']
  rw [h1, h2, hlen]

/-- Witness for C1 at two chunk lists of equal length with different
contents, different dicts and different amplicons. -/
theorem c1_queries_ignore_chunk_content_witness :
    3 ≤ 8 ∧ ([['A'], ['B'], ['C'], ['D']] : List Seq).length
        = ([['E'], ['F'], ['G'], ['H']] : List Seq).length
    ∧ (([['A'], ['B'], ['C'], ['D']] : List Seq).mapM
          (fun _chunk => search_mates_amplicon [] ("AAAAA".toList, 12) 8)
        = ([['E'], ['F'], ['G'], ['H']] : List Seq).mapM
          (fun _chunk => search_mates_amplicon [("AA".toList, [5])] ("TTTTT".toList, 3) 8)
      ∧ ([['A'], ['B'], ['C'], ['D']] : List Seq).mapM
          (fun _chunk => search_mates_amplicon [] ("AAAAA".toList, 12) 8)
        = Except.ok (([['A'], ['B'], ['C'], ['D']] : List Seq).map
            (fun _chunk => ([] : List Nat)))) :=
  ⟨by decide, by decide,
    c1_queries_ignore_chunk_content [] [("AA".toList, [5])] ("AAAAA".toList, 12)
      ("TTTTT".toList, 3) 8 [['A'], ['B'], ['C'], ['D']] [['E'], ['F'], ['G'], ['H']]
      (by decide) (by decide)⟩

/-! ## C5 -/

/-- C5 (code bug): the trailing `yield seq` of `read_fasta` (agc.py
lines 87 and 99) has no length guard, so the final record of the file is
yielded even when it is shorter than `minseqlen`: on the two-line file
`>s1` / `ACGT` with `minseqlen = 10`, the 4-character sequence is
yielded. -/
theorem c5_final_record_unfiltered :
    read_fasta [['>', 's', '1'], "ACGT".toList] 10 = ["ACGT".toList]
      ∧ ("ACGT".toList).length < 10 :=
  ⟨rfl, by decide⟩

/-! ## C4 -/

lemma getD_map_nil (l : List Seq) (i : Nat) :
    (l.map (fun _chunk => ([] : List Nat))).getD i [] = [] := by
  rw [List.getD_eq_getElem?_getD, List.getElem?_map]
  cases l[i]? <;> rfl

lemma common_nil (l : List Nat) : common [] l = [] := rfl

lemma foldl_common_nil : ∀ l : List (List Nat), l.foldl common [] = []
  | [] => rfl
  | x :: l => by rw [List.foldl_cons, common_nil, foldl_common_nil l]

/-- `chimera_removal_go` raises `ValueError` exactly when some remaining
amplicon's sequence yields fewer than 4 chunks, whatever the current
state: under `kmer_size ≥ 3` every per-chunk candidate list is empty, the
common-candidate set is empty, and the chimera branch is never entered, so
the only possible exception is the chunking one — and it is not caught. -/
lemma chimera_removal_go_error_iff (align : Seq → Seq → Seq × Seq) (cs ks : Nat)
    (hcs : 1 ≤ cs) (hks : 3 ≤ ks) :
    ∀ (amps : List (Seq × Nat)) (lnc : List Seq) (kd : KDict) (idr : Nat),
      (chimera_removal_go align cs ks amps lnc kd idr = Except.error PyErr.valueError
        ↔ ∃ p ∈ amps, (p.1.length - 1) / cs < 4) := by
  intro amps
  induction amps with
  | nil =>
    intro lnc kd idr
    simp [chimera_removal_go]
  | cons p rest ih =>
    intro lnc kd idr
    obtain ⟨s, c⟩ := p
    by_cases hfail : (s.length - 1) / cs < 4
    · have hch : get_chunks s cs = Except.error PyErr.valueError := by
        rw [get_chunks_eq s cs hcs, if_neg (by omega)]
      simp only [chimera_removal_go, hch]
      constructor
      · intro _
        exact ⟨(s, c), List.mem_cons_self _ _, hfail⟩
      · intro _
        trivial
    · have h4 : 4 ≤ (s.length - 1) / cs := by omega
      have hch : get_chunks s cs
          = Except.ok ((List.range ((s.length - 1) / cs)).map
              (fun j => (s.drop (j * cs)).take cs)) := by
        rw [get_chunks_eq s cs hcs, if_pos h4]
      simp only [chimera_removal_go, hch, mates_eq kd (s, c) ks hks, getD_map_nil,
        common_nil, foldl_common_nil, List.length_nil]
      have hone : ¬ (1 < 0) := by omega
      simp only [if_neg hone, Bool.false_eq_true, if_false]
      have hstep : (match chimera_removal_go align cs ks rest (lnc ++ [s])
            (get_unique_kmer kd s idr ks) (idr + 1) with
          | Except.error e => Except.error e
          | Except.ok out => Except.ok ((s, c) :: out))
            = Except.error PyErr.valueError
          ↔ chimera_removal_go align cs ks rest (lnc ++ [s])
              (get_unique_kmer kd s idr ks) (idr + 1)
            = Except.error PyErr.valueError := by
        cases chimera_removal_go align cs ks rest (lnc ++ [s])
            (get_unique_kmer kd s idr ks) (idr + 1) <;> simp
      rw [hstep, ih (lnc ++ [s]) (get_unique_kmer kd s idr ks) (idr + 1)]
      constructor
      · rintro ⟨q, hq, hP⟩
        exact ⟨q, List.mem_cons_of_mem _ hq, hP⟩
      · rintro ⟨q, hq, hP⟩
        rcases List.mem_cons.mp hq with rfl | hq'
        · exact absurd hP hfail
        · exact ⟨q, hq', hP⟩

/-- C4 counterexample: on a source whose most abundant dereplicated
sequence (`AAA`, count 12) yields fewer than 4 chunks with chunk size 1,
`chimera_removal` raises `ValueError` and yields nothing, although a
later healthy amplicon (`AAAAA`, count 10) is in the dereplicated stream —
the failure aborts the whole run instead of excluding only the offending
sequence. -/
theorem c4_counterexample :
    chimera_removal trivialAlign linesC4 3 10 1 8 = Except.error PyErr.valueError
      ∧ ("AAAAA".toList, 10) ∈ dereplication_fulllength linesC4 3 10 :=
  ⟨rfl, by decide⟩

/-- C4 (amended): when chunking fails for a dereplicated sequence (fewer
than 4 chunks), the `ValueError` escapes `chimera_removal` uncaught and
aborts the whole run — no amplicon is yielded; conversely, with
`chunk_size ≥ 1` and `kmer_size ≥ 3`, the run aborts exactly when some
dereplicated amplicon fails chunking. -/
theorem c4_amended (align : Seq → Seq → Seq × Seq) (lines : List (List Char))
    (msl mc cs ks : Nat) (hcs : 1 ≤ cs) (hks : 3 ≤ ks) :
    chimera_removal align lines msl mc cs ks = Except.error PyErr.valueError
      ↔ ∃ p ∈ dereplication_fulllength lines msl mc, (p.1.length - 1) / cs < 4 := by
  unfold chimera_removal
  exact chimera_removal_go_error_iff align cs ks hcs hks _ [] [] 0

/-- Witness for C4 (amended) on the concrete two-sequence input. -/
theorem c4_amended_witness :
    1 ≤ 1 ∧ 3 ≤ 8
    ∧ (chimera_removal trivialAlign linesC4 3 10 1 8 = Except.error PyErr.valueError
        ↔ ∃ p ∈ dereplication_fulllength linesC4 3 10, (p.1.length - 1) / 1 < 4) :=
  ⟨by decide, by decide, c4_amended trivialAlign linesC4 3 10 1 8 (by decide) (by decide)⟩

/-! ## C6 and C8: the chimera test -/

/-- On a two-entry row, `statistics.stdev` succeeds and returns the
sample standard deviation of the two values. -/
lemma stdev_pair (a b : ℚ) : stdev [a, b] = Except.ok (stdevPair a b) := by
  unfold stdev
  rw [if_neg (by simp)]
  have h : ((sampleVariance [a, b] : ℚ) : ℝ)
      = (((a : ℝ) - ((a : ℝ) + (b : ℝ)) / 2) ^ 2
          + ((b : ℝ) - ((a : ℝ) + (b : ℝ)) / 2) ^ 2) / 1 := by
    unfold sampleVariance pyMean
    simp only [List.map_cons, List.map_nil, List.sum_cons, List.sum_nil,
      List.length_cons, List.length_nil]
    push_cast
    ring
  unfold stdevPair
  rw [h]

/-- Closed form of the row loop of `detect_chimera` on a matrix whose rows
all have exactly two entries. -/
lemma detect_chimera_loop_spec :
    ∀ (m : List (List ℚ)) (s : ℝ) (b1 b2 : Bool),
      (∀ r ∈ m, r.length = 2) →
      detect_chimera_loop m s b1 b2
        = Except.ok
            (s + (m.map (fun r => stdevPair (r.getD 0 0) (r.getD 1 0))).sum,
             b1 || m.any (fun r => decide (r.getD 1 0 < r.getD 0 0)),
             b2 || m.any (fun r => decide (r.getD 0 0 < r.getD 1 0))) := by
  intro m
  induction m with
  | nil =>
    intro s b1 b2 _
    simp [detect_chimera_loop]
  | cons r rest ih =>
    intro s b1 b2 h2
    have hr : r.length = 2 := h2 r (List.mem_cons_self _ _)
    obtain ⟨a, b, rfl⟩ := List.length_eq_two.mp hr
    rw [detect_chimera_loop, stdev_pair]
    dsimp only
    rw [ih _ _ _ (fun x hx => h2 x (List.mem_cons_of_mem _ hx))]
    simp [add_assoc, Bool.or_assoc]

/-- Closed form of `detect_chimera` on a nonempty matrix of two-entry
rows. -/
lemma detect_chimera_ok (m : List (List ℚ)) (hne : m ≠ [])
    (h2 : ∀ r ∈ m, r.length = 2) :
    detect_chimera m
      = Except.ok
          (decide ((5 : ℝ)
              < (m.map (fun r => stdevPair (r.getD 0 0) (r.getD 1 0))).sum / (m.length : ℝ))
            && m.any (fun r => decide (r.getD 1 0 < r.getD 0 0))
            && m.any (fun r => decide (r.getD 0 0 < r.getD 1 0))) := by
  unfold detect_chimera
  rw [detect_chimera_loop_spec m 0 false false h2]
  simp only [zero_add, Bool.false_or]
  rw [if_neg (by simpa using hne)]

/-- C8: for a nonempty percent-identity matrix of two-entry rows,
`detect_chimera` answers `True` exactly when the mean over rows of the
per-row sample standard deviation of the two identity scores exceeds 5,
some row has its first value strictly greater than its second, and some
row has its second value strictly greater than its first. -/
theorem c8_detect_chimera_iff (m : List (List ℚ)) (hne : m ≠ [])
    (h2 : ∀ r ∈ m, r.length = 2) :
    detect_chimera m = Except.ok true
      ↔ ((5 : ℝ) < (m.map (fun r => stdevPair (r.getD 0 0) (r.getD 1 0))).sum / (m.length : ℝ)
          ∧ (∃ r ∈ m, r.getD 1 0 < r.getD 0 0)
          ∧ (∃ r ∈ m, r.getD 0 0 < r.getD 1 0)) := by
  rw [detect_chimera_ok m hne h2]
  simp only [Except.ok.injEq, Bool.and_eq_true, decide_eq_true_eq, List.any_eq_true]
  tauto

/-- Witness for C8 at the one-row matrix `[[100, 0]]`. -/
theorem c8_detect_chimera_iff_witness :
    ([[(100 : ℚ), 0]] ≠ ([] : List (List ℚ)))
    ∧ (∀ r ∈ [[(100 : ℚ), 0]], r.length = 2)
    ∧ (detect_chimera [[(100 : ℚ), 0]] = Except.ok true
      ↔ ((5 : ℝ) < ([[(100 : ℚ), 0]].map
              (fun r => stdevPair (r.getD 0 0) (r.getD 1 0))).sum
            / (([[(100 : ℚ), 0]].length : Nat) : ℝ)
          ∧ (∃ r ∈ [[(100 : ℚ), 0]], r.getD 1 0 < r.getD 0 0)
          ∧ (∃ r ∈ [[(100 : ℚ), 0]], r.getD 0 0 < r.getD 1 0))) :=
  ⟨by decide, by decide, c8_detect_chimera_iff _ (by decide) (by decide)⟩

/-- C6 counterexample: on the matrix with a single one-entry row,
`detect_chimera` raises `StatisticsError` (`statistics.stdev` demands at
least two data points) instead of treating the row as zero-variance and
returning a verdict. -/
theorem c6_counterexample :
    detect_chimera [[(50 : ℚ)]] = Except.error PyErr.statisticsError := rfl

lemma detect_chimera_loop_total :
    ∀ (m : List (List ℚ)) (s : ℝ) (b1 b2 : Bool),
      (∀ r ∈ m, 2 ≤ r.length) →
      ∃ st, detect_chimera_loop m s b1 b2 = Except.ok st := by
  intro m
  induction m with
  | nil =>
    intro s b1 b2 _
    exact ⟨_, rfl⟩
  | cons r rest ih =>
    intro s b1 b2 h2
    have hr : ¬ (r.length < 2) := by
      have := h2 r (List.mem_cons_self _ _)
      omega
    rw [detect_chimera_loop]
    unfold stdev
    rw [if_neg hr]
    exact ih _ _ _ (fun x hx => h2 x (List.mem_cons_of_mem _ hx))

/-- C6 (amended): `detect_chimera` raises `StatisticsError` on a matrix
containing a row with fewer than two identity values; it returns a verdict
(is total) exactly over matrices all of whose rows hold at least two
values — and in the pipeline every row holds exactly two. -/
theorem c6_amended (m : List (List ℚ)) (hne : m ≠ [])
    (h2 : ∀ r ∈ m, 2 ≤ r.length) :
    ∃ b, detect_chimera m = Except.ok b := by
  obtain ⟨st, hst⟩ := detect_chimera_loop_total m 0 false false h2
  unfold detect_chimera
  rw [hst]
  obtain ⟨sum, b1, b2⟩ := st
  dsimp only
  rw [if_neg (by simpa using hne)]
  exact ⟨_, rfl⟩

/-- Witness for C6 (amended) at the one-row matrix `[[0, 100]]`. -/
theorem c6_amended_witness :
    ([[(0 : ℚ), 100]] ≠ ([] : List (List ℚ)))
    ∧ (∀ r ∈ [[(0 : ℚ), 100]], 2 ≤ r.length)
    ∧ ∃ b, detect_chimera [[(0 : ℚ), 100]] = Except.ok b :=
  ⟨by decide, by decide, c6_amended _ (by decide) (by decide)⟩

/-! ## First-occurrence deduplication: properties -/

lemma mem_uniqFirstAux {α : Type} [DecidableEq α] :
    ∀ (l seen : List α) (x : α), x ∈ uniqFirstAux l seen ↔ x ∈ l ∧ x ∉ seen := by
  intro l
  induction l with
  | nil =>
    intro seen x
    simp [uniqFirstAux]
  | cons a l ih =>
    intro seen x
    by_cases ha : a ∈ seen
    · rw [uniqFirstAux, if_pos ha, ih]
      constructor
      · rintro ⟨hx, hns⟩
        exact ⟨List.mem_cons_of_mem a hx, hns⟩
      · rintro ⟨hx, hns⟩
        rcases List.mem_cons.mp hx with rfl | hx'
        · exact absurd ha hns
        · exact ⟨hx', hns⟩
    · rw [uniqFirstAux, if_neg ha]
      constructor
      · intro hx
        rcases List.mem_cons.mp hx with rfl | hx'
        · exact ⟨List.mem_cons_self _ _, ha⟩
        · obtain ⟨hl, hns⟩ := (ih (seen ++ [a]) x).mp hx'
          simp only [List.mem_append, List.mem_singleton] at hns
          exact ⟨List.mem_cons_of_mem a hl, fun h => hns (Or.inl h)⟩
      · rintro ⟨hx, hns⟩
        rcases List.mem_cons.mp hx with rfl | hx'
        · exact List.mem_cons_self _ _
        · by_cases hxa : x = a
          · subst hxa
            exact List.mem_cons_self _ _
          · refine List.mem_cons_of_mem a ((ih (seen ++ [a]) x).mpr ⟨hx', ?_⟩)
            simp only [List.mem_append, List.mem_singleton]
            rintro (h | h)
            · exact hns h
            · exact hxa h

lemma mem_uniqFirst {α : Type} [DecidableEq α] (l : List α) (x : α) :
    x ∈ uniqFirst l ↔ x ∈ l := by
  rw [uniqFirst, mem_uniqFirstAux]
  simp

lemma uniqFirstAux_nodup {α : Type} [DecidableEq α] :
    ∀ (l seen : List α), (uniqFirstAux l seen).Nodup := by
  intro l
  induction l with
  | nil =>
    intro seen
    simp [uniqFirstAux]
  | cons a l ih =>
    intro seen
    by_cases ha : a ∈ seen
    · rw [uniqFirstAux, if_pos ha]
      exact ih seen
    · rw [uniqFirstAux, if_neg ha]
      refine List.nodup_cons.mpr ⟨?_, ih (seen ++ [a])⟩
      intro hmem
      have := (mem_uniqFirstAux l (seen ++ [a]) a).mp hmem
      simp at this

lemma uniqFirst_nodup {α : Type} [DecidableEq α] (l : List α) :
    (uniqFirst l).Nodup :=
  uniqFirstAux_nodup l []

lemma uniqFirstAux_append_singleton {α : Type} [DecidableEq α] (s : α) :
    ∀ (p seen : List α),
      uniqFirstAux (p ++ [s]) seen
        = if s ∈ seen ∨ s ∈ p then uniqFirstAux p seen
          else uniqFirstAux p seen ++ [s] := by
  intro p
  induction p with
  | nil =>
    intro seen
    by_cases hs : s ∈ seen
    · simp [uniqFirstAux, hs]
    · simp [uniqFirstAux, hs]
  | cons a p ih =>
    intro seen
    by_cases ha : a ∈ seen
    · rw [List.cons_append, uniqFirstAux, if_pos ha, ih seen, uniqFirstAux, if_pos ha]
      have hiff : (s ∈ seen ∨ s ∈ p) ↔ (s ∈ seen ∨ s ∈ a :: p) := by
        constructor
        · rintro (h | h)
          · exact Or.inl h
          · exact Or.inr (List.mem_cons_of_mem a h)
        · rintro (h | h)
          · exact Or.inl h
          · rcases List.mem_cons.mp h with rfl | h'
            · exact Or.inl ha
            · exact Or.inr h'
      exact if_congr hiff rfl rfl
    · rw [List.cons_append, uniqFirstAux, if_neg ha, ih (seen ++ [a]),
        uniqFirstAux, if_neg ha]
      have hiff : (s ∈ seen ++ [a] ∨ s ∈ p) ↔ (s ∈ seen ∨ s ∈ a :: p) := by
        simp only [List.mem_append, List.mem_singleton, List.mem_cons]
        tauto
      by_cases hc : s ∈ seen ∨ s ∈ a :: p
      · rw [if_pos (hiff.mpr hc), if_pos hc]
      · rw [if_neg (fun h => hc (hiff.mp h)), if_neg hc, List.cons_append]

lemma uniqFirst_append_singleton {α : Type} [DecidableEq α] (p : List α) (s : α) :
    uniqFirst (p ++ [s])
      = if s ∈ p then uniqFirst p else uniqFirst p ++ [s] := by
  rw [uniqFirst, uniqFirstAux_append_singleton s p []]
  simp [uniqFirst]

/-! ## C7: the dereplication dict -/

/-- The value of the counting dict of `dereplication_fulllength` after
scanning `p`: the distinct sequences in first-seen order, each with its
number of occurrences. -/
def dictOf (p : List Seq) : List (Seq × Nat) :=
  (uniqFirst p).map (fun s => (s, p.count s))

lemma incr_map_mem (cnt : Seq → Nat) (s : Seq) :
    ∀ keys : List Seq, s ∈ keys → keys.Nodup →
      incr (keys.map (fun t => (t, cnt t))) s
        = keys.map (fun t => (t, cnt t + if t = s then 1 else 0)) := by
  intro keys
  induction keys with
  | nil =>
    intro h
    exact absurd h (List.not_mem_nil s)
  | cons k ks ih =>
    intro hmem hnd
    rw [List.map_cons, List.map_cons, incr]
    by_cases hk : k = s
    · rw [if_pos hk, if_pos hk]
      congr 1
      refine List.map_congr_left (fun t ht => ?_)
      have hts : t ≠ s := by
        subst hk
        intro h
        subst h
        exact (List.nodup_cons.mp hnd).1 ht
      rw [if_neg hts, Nat.add_zero]
    · rw [if_neg hk, if_neg hk, Nat.add_zero]
      congr 1
      refine ih ?_ (List.nodup_cons.mp hnd).2
      rcases List.mem_cons.mp hmem with rfl | h'
      · exact absurd rfl hk
      · exact h'

lemma incr_map_not_mem (cnt : Seq → Nat) (s : Seq) :
    ∀ keys : List Seq, s ∉ keys →
      incr (keys.map (fun t => (t, cnt t))) s
        = keys.map (fun t => (t, cnt t)) ++ [(s, 1)] := by
  intro keys
  induction keys with
  | nil =>
    intro _
    rfl
  | cons k ks ih =>
    intro hmem
    have hk : k ≠ s := fun h => hmem (h ▸ List.mem_cons_self k ks)
    rw [List.map_cons, incr, if_neg hk]
    congr 1
    exact ih (fun h => hmem (List.mem_cons_of_mem k h))

lemma incr_dictOf (p : List Seq) (s : Seq) :
    incr (dictOf p) s = dictOf (p ++ [s]) := by
  have hcount : ∀ t : Seq, (p ++ [s]).count t = p.count t + if t = s then 1 else 0 := by
    intro t
    by_cases hts : t = s
    · subst hts
      simp [List.count_append]
    · simp [List.count_append, List.count_cons, hts, Ne.symm hts]
  unfold dictOf
  by_cases hs : s ∈ p
  · rw [uniqFirst_append_singleton, if_pos hs]
    rw [incr_map_mem (fun t => p.count t) s (uniqFirst p)
      ((mem_uniqFirst p s).mpr hs) (uniqFirst_nodup p)]
    refine List.map_congr_left (fun t _ => ?_)
    rw [hcount t]
  · rw [uniqFirst_append_singleton, if_neg hs]
    rw [incr_map_not_mem (fun t => p.count t) s (uniqFirst p)
      (fun h => hs ((mem_uniqFirst p s).mp h))]
    rw [List.map_append]
    congr 1
    · refine List.map_congr_left (fun t ht => ?_)
      have hts : t ≠ s := fun h => hs (h ▸ (mem_uniqFirst p t).mp ht)
      rw [hcount t, if_neg hts, Nat.add_zero]
    · rw [List.map_cons, List.map_nil, hcount s, if_pos rfl,
        List.count_eq_zero_of_not_mem hs]

lemma countSeqs_dictOf : ∀ (l p : List Seq), countSeqs l (dictOf p) = dictOf (p ++ l) := by
  intro l
  induction l with
  | nil =>
    intro p
    rw [List.append_nil]
    rfl
  | cons s l ih =>
    intro p
    rw [countSeqs, incr_dictOf, ih (p ++ [s]), List.append_assoc, List.singleton_append]

lemma countSeqs_eq (l : List Seq) : countSeqs l [] = dictOf l := by
  have h : (([] : List (Seq × Nat))) = dictOf [] := rfl
  rw [h, countSeqs_dictOf l [], List.nil_append]

lemma dictOf_keys (p : List Seq) : (dictOf p).map Prod.fst = uniqFirst p := by
  unfold dictOf
  rw [List.map_map]
  exact List.map_id (uniqFirst p)

/-! ## C7: the stable descending sort -/

lemma mem_insertByCount {α : Type} (x : α × Nat) :
    ∀ (l : List (α × Nat)) (z : α × Nat), z ∈ insertByCount x l ↔ z = x ∨ z ∈ l := by
  intro l
  induction l with
  | nil =>
    intro z
    simp [insertByCount]
  | cons y ys ih =>
    intro z
    rw [insertByCount]
    by_cases hxy : x.2 ≤ y.2
    · rw [if_pos hxy]
      simp only [List.mem_cons, ih]
      tauto
    · rw [if_neg hxy]
      simp [List.mem_cons]

lemma insertByCount_sorted {α : Type} (x : α × Nat) :
    ∀ l : List (α × Nat), l.Pairwise (fun a b => b.2 ≤ a.2) →
      (insertByCount x l).Pairwise (fun a b => b.2 ≤ a.2) := by
  intro l
  induction l with
  | nil =>
    intro _
    exact List.pairwise_singleton _ x
  | cons y ys ih =>
    intro hl
    obtain ⟨hy, hys⟩ := List.pairwise_cons.mp hl
    rw [insertByCount]
    by_cases hxy : x.2 ≤ y.2
    · rw [if_pos hxy]
      refine List.pairwise_cons.mpr ⟨?_, ih hys⟩
      intro z hz
      rcases (mem_insertByCount x ys z).mp hz with rfl | hz'
      · exact hxy
      · exact hy z hz'
    · rw [if_neg hxy]
      refine List.pairwise_cons.mpr ⟨?_, hl⟩
      intro z hz
      rcases List.mem_cons.mp hz with rfl | hz'
      · omega
      · have := hy z hz'
        omega

lemma insertByCount_perm {α : Type} (x : α × Nat) :
    ∀ l : List (α × Nat), List.Perm (insertByCount x l) (x :: l) := by
  intro l
  induction l with
  | nil => exact List.Perm.refl _
  | cons y ys ih =>
    rw [insertByCount]
    by_cases hxy : x.2 ≤ y.2
    · rw [if_pos hxy]
      exact (List.Perm.cons y ih).trans (List.Perm.swap x y ys)
    · rw [if_neg hxy]

lemma insertByCount_filter {α : Type} (n : Nat) (x : α × Nat) :
    ∀ l : List (α × Nat), l.Pairwise (fun a b => b.2 ≤ a.2) →
      (insertByCount x l).filter (fun p => decide (p.2 = n))
        = l.filter (fun p => decide (p.2 = n)) ++ (if x.2 = n then [x] else []) := by
  intro l
  induction l with
  | nil =>
    intro _
    by_cases hx : x.2 = n
    · simp [insertByCount, List.filter_cons, hx]
    · simp [insertByCount, List.filter_cons, hx]
  | cons y ys ih =>
    intro hl
    obtain ⟨hy, hys⟩ := List.pairwise_cons.mp hl
    rw [insertByCount]
    by_cases hxy : x.2 ≤ y.2
    · rw [if_pos hxy, List.filter_cons, List.filter_cons, ih hys]
      by_cases hyn : y.2 = n
      · have hy' : decide (y.2 = n) = true := by simpa using hyn
        rw [if_pos hy', if_pos hy', List.cons_append]
      · have hy' : ¬ decide (y.2 = n) = true := by simpa using hyn
        rw [if_neg hy', if_neg hy']
    · rw [if_neg hxy, List.filter_cons]
      by_cases hx : x.2 = n
      · have hx' : decide (x.2 = n) = true := by simpa using hx
        rw [if_pos hx', if_pos hx]
        have hnil : (y :: ys).filter (fun p => decide (p.2 = n)) = [] := by
          rw [List.filter_eq_nil_iff]
          intro z hz
          simp only [decide_eq_true_eq]
          rcases List.mem_cons.mp hz with rfl | hz'
          · omega
          · have := hy z hz'
            omega
        rw [hnil, List.nil_append]
      · have hx' : ¬ decide (x.2 = n) = true := by simpa using hx
        rw [if_neg hx', if_neg hx, List.append_nil]

lemma sort_go_sorted {α : Type} :
    ∀ (l acc : List (α × Nat)), acc.Pairwise (fun a b => b.2 ≤ a.2) →
      (l.foldl (fun acc x => insertByCount x acc) acc).Pairwise (fun a b => b.2 ≤ a.2) := by
  intro l
  induction l with
  | nil =>
    intro acc h
    exact h
  | cons x l ih =>
    intro acc h
    rw [List.foldl_cons]
    exact ih _ (insertByCount_sorted x acc h)

lemma sort_go_perm {α : Type} :
    ∀ (l acc : List (α × Nat)),
      List.Perm (l.foldl (fun acc x => insertByCount x acc) acc) (acc ++ l) := by
  intro l
  induction l with
  | nil =>
    intro acc
    rw [List.foldl_nil, List.append_nil]
  | cons x l ih =>
    intro acc
    rw [List.foldl_cons]
    refine (ih (insertByCount x acc)).trans ?_
    refine (List.Perm.append_right l (insertByCount_perm x acc)).trans ?_
    exact List.perm_middle.symm

lemma sort_go_filter {α : Type} (n : Nat) :
    ∀ (l acc : List (α × Nat)), acc.Pairwise (fun a b => b.2 ≤ a.2) →
      (l.foldl (fun acc x => insertByCount x acc) acc).filter (fun p => decide (p.2 = n))
        = acc.filter (fun p => decide (p.2 = n)) ++ l.filter (fun p => decide (p.2 = n)) := by
  intro l
  induction l with
  | nil =>
    intro acc _
    rw [List.foldl_nil, List.filter_nil, List.append_nil]
  | cons x l ih =>
    intro acc h
    rw [List.foldl_cons, ih _ (insertByCount_sorted x acc h),
      insertByCount_filter n x acc h, List.filter_cons, List.append_assoc]
    congr 1
    by_cases hx : x.2 = n
    · rw [if_pos hx, if_pos (by simpa using hx), List.singleton_append]
    · rw [if_neg hx, if_neg (by simpa using hx), List.nil_append]

lemma sortByCountDesc_sorted {α : Type} (l : List (α × Nat)) :
    (sortByCountDesc l).Pairwise (fun a b => b.2 ≤ a.2) :=
  sort_go_sorted l [] (List.Pairwise.nil)

lemma sortByCountDesc_perm {α : Type} (l : List (α × Nat)) :
    List.Perm (sortByCountDesc l) l :=
  (sort_go_perm l []).trans (by rw [List.nil_append])

lemma sortByCountDesc_filter {α : Type} (n : Nat) (l : List (α × Nat)) :
    (sortByCountDesc l).filter (fun p => decide (p.2 = n))
      = l.filter (fun p => decide (p.2 = n)) := by
  have h := sort_go_filter n l [] (List.Pairwise.nil)
  rwa [List.filter_nil, List.nil_append] at h

/-- C7: `dereplication_fulllength` yields only pairs with count at least
`mincount`; the yielded sequences are pairwise distinct; the pairs come in
non-increasing count order; and within every count value, the yielded
sequences form a sublist of the distinct sequences of the source in order
of first appearance — the stable sort breaks ties by first-seen order. -/
theorem c7_dereplication_spec (lines : List (List Char)) (minseqlen mincount : Nat) :
    (∀ p ∈ dereplication_fulllength lines minseqlen mincount, mincount ≤ p.2)
    ∧ ((dereplication_fulllength lines minseqlen mincount).map Prod.fst).Nodup
    ∧ (dereplication_fulllength lines minseqlen mincount).Pairwise
        (fun a b => b.2 ≤ a.2)
    ∧ ∀ n : Nat,
        List.Sublist
          (((dereplication_fulllength lines minseqlen mincount).filter
              (fun p => decide (p.2 = n))).map Prod.fst)
          (uniqFirst (read_fasta lines minseqlen)) := by
  have hdict : countSeqs (read_fasta lines minseqlen) []
      = dictOf (read_fasta lines minseqlen) := countSeqs_eq _
  refine ⟨?_, ?_, ?_, ?_⟩
  · intro p hp
    have := List.of_mem_filter hp
    simpa using this
  · have hperm : List.Perm
        ((sortByCountDesc (countSeqs (read_fasta lines minseqlen) [])).map Prod.fst)
        ((countSeqs (read_fasta lines minseqlen) []).map Prod.fst) :=
      (sortByCountDesc_perm _).map Prod.fst
    have hkeys : (countSeqs (read_fasta lines minseqlen) []).map Prod.fst
        = uniqFirst (read_fasta lines minseqlen) := by
      rw [hdict, dictOf_keys]
    have hnodup : ((sortByCountDesc (countSeqs (read_fasta lines minseqlen) [])).map
        Prod.fst).Nodup := by
      rw [hperm.nodup_iff, hkeys]
      exact uniqFirst_nodup _
    exact List.Nodup.sublist
      (List.Sublist.map Prod.fst (List.filter_sublist _)) hnodup
  · exact (sortByCountDesc_sorted _).filter _
  · intro n
    unfold dereplication_fulllength
    rw [List.filter_filter]
    by_cases hmn : mincount ≤ n
    · have hpred : (fun p : Seq × Nat => decide (p.2 = n) && decide (mincount ≤ p.2))
          = fun p : Seq × Nat => decide (p.2 = n) := by
        funext p
        by_cases hp : p.2 = n
        · simp [hp, hmn]
        · simp [hp]
      rw [hpred, sortByCountDesc_filter, hdict]
      have hsub : List.Sublist
          (((dictOf (read_fasta lines minseqlen)).filter
            (fun p => decide (p.2 = n))).map Prod.fst)
          ((dictOf (read_fasta lines minseqlen)).map Prod.fst) :=
        List.Sublist.map Prod.fst (List.filter_sublist _)
      rwa [dictOf_keys] at hsub
    · have hnil : (sortByCountDesc (countSeqs (read_fasta lines minseqlen) [])).filter
          (fun p => decide (p.2 = n) && decide (mincount ≤ p.2)) = [] := by
        rw [List.filter_eq_nil_iff]
        intro p _
        simp only [Bool.and_eq_true, decide_eq_true_eq, not_and]
        intro h1 h2
        omega
      rw [hnil]
      exact List.nil_sublist _

/-! ## C9: the k-mer index -/

/-- The invariant "every id list in the dict is nonempty and holds only
the id `i`" is preserved by `kdAdd` with id `i`. -/
lemma kdAdd_all_eq (i : Nat) :
    ∀ (d : KDict) (km : Seq),
      (∀ kv ∈ d, kv.2 ≠ [] ∧ ∀ x ∈ kv.2, x = i) →
      ∀ kv ∈ kdAdd d km i, kv.2 ≠ [] ∧ ∀ x ∈ kv.2, x = i := by
  intro d
  induction d with
  | nil =>
    intro km _ kv hkv
    rw [kdAdd] at hkv
    rcases List.mem_cons.mp hkv with rfl | h
    · refine ⟨by simp, ?_⟩
      intro x hx
      simpa using hx
    · exact absurd h (List.not_mem_nil kv)
  | cons p rest ih =>
    intro km hinv kv hkv
    obtain ⟨k, v⟩ := p
    rw [kdAdd] at hkv
    by_cases hk : k = km
    · rw [if_pos hk] at hkv
      rcases List.mem_cons.mp hkv with rfl | h
      · have hv := hinv (k, v) (List.mem_cons_self _ _)
        refine ⟨by simp, ?_⟩
        intro x hx
        rcases List.mem_append.mp hx with hx' | hx'
        · exact hv.2 x hx'
        · simpa using hx'
      · exact hinv kv (List.mem_cons_of_mem _ h)
    · rw [if_neg hk] at hkv
      rcases List.mem_cons.mp hkv with rfl | h
      · exact hinv (k, v) (List.mem_cons_self _ _)
      · exact ih km (fun q hq => hinv q (List.mem_cons_of_mem _ hq)) kv h

lemma foldl_kdAdd_all_eq (i : Nat) :
    ∀ (kms : List Seq) (d : KDict),
      (∀ kv ∈ d, kv.2 ≠ [] ∧ ∀ x ∈ kv.2, x = i) →
      ∀ kv ∈ kms.foldl (fun d km => kdAdd d km i) d, kv.2 ≠ [] ∧ ∀ x ∈ kv.2, x = i := by
  intro kms
  induction kms with
  | nil =>
    intro d hinv
    exact hinv
  | cons km kms ih =>
    intro d hinv
    rw [List.foldl_cons]
    exact ih _ (kdAdd_all_eq i d km hinv)

lemma get_unique_kmer_all_eq (S : Seq) (i k : Nat) :
    ∀ kv ∈ get_unique_kmer [] S i k, kv.2 ≠ [] ∧ ∀ x ∈ kv.2, x = i := by
  unfold get_unique_kmer
  exact foldl_kdAdd_all_eq i (cut_kmer S k) [] (by intro kv h; exact absurd h (List.not_mem_nil kv))

lemma kdFind_mem : ∀ (d : KDict) (km : Seq) (v : List Nat),
    kdFind d km = some v → (km, v) ∈ d := by
  intro d
  induction d with
  | nil =>
    intro km v h
    exact absurd h (by simp [kdFind])
  | cons p rest ih =>
    intro km v h
    obtain ⟨k, w⟩ := p
    rw [kdFind] at h
    by_cases hk : k = km
    · rw [if_pos hk] at h
      obtain rfl : w = v := by simpa using h
      subst hk
      exact List.mem_cons_self _ _
    · rw [if_neg hk] at h
      exact List.mem_cons_of_mem _ (ih km v h)

lemma kdAdd_find_self : ∀ (d : KDict) (km : Seq) (i : Nat),
    (kdFind (kdAdd d km i) km).isSome := by
  intro d
  induction d with
  | nil =>
    intro km i
    simp [kdAdd, kdFind]
  | cons p rest ih =>
    intro km i
    obtain ⟨k, v⟩ := p
    rw [kdAdd]
    by_cases hk : k = km
    · rw [if_pos hk, kdFind, if_pos hk]
      rfl
    · rw [if_neg hk, kdFind, if_neg hk]
      exact ih km i

lemma kdAdd_find_mono : ∀ (d : KDict) (km km' : Seq) (i : Nat),
    (kdFind d km).isSome → (kdFind (kdAdd d km' i) km).isSome := by
  intro d
  induction d with
  | nil =>
    intro km km' i h
    simp [kdFind] at h
  | cons p rest ih =>
    intro km km' i h
    obtain ⟨k, v⟩ := p
    rw [kdFind] at h
    rw [kdAdd]
    by_cases hk' : k = km'
    · rw [if_pos hk', kdFind]
      by_cases hk : k = km
      · rw [if_pos hk]
        rfl
      · rw [if_neg hk]
        rw [if_neg hk] at h
        exact h
    · rw [if_neg hk', kdFind]
      by_cases hk : k = km
      · rw [if_pos hk]
        rfl
      · rw [if_neg hk]
        rw [if_neg hk] at h
        exact ih km km' i h

lemma foldl_kdAdd_find_mono (i : Nat) :
    ∀ (kms : List Seq) (d : KDict) (km : Seq),
      (kdFind d km).isSome →
      (kdFind (kms.foldl (fun d km' => kdAdd d km' i) d) km).isSome := by
  intro kms
  induction kms with
  | nil =>
    intro d km h
    exact h
  | cons km' kms ih =>
    intro d km h
    rw [List.foldl_cons]
    exact ih _ km (kdAdd_find_mono d km km' i h)

lemma foldl_kdAdd_find_mem (i : Nat) :
    ∀ (kms : List Seq) (d : KDict) (km : Seq), km ∈ kms →
      (kdFind (kms.foldl (fun d km' => kdAdd d km' i) d) km).isSome := by
  intro kms
  induction kms with
  | nil =>
    intro d km h
    exact absurd h (List.not_mem_nil km)
  | cons km' kms ih =>
    intro d km h
    rw [List.foldl_cons]
    rcases List.mem_cons.mp h with rfl | h'
    · exact foldl_kdAdd_find_mono i kms _ km (kdAdd_find_self d km i)
    · exact ih _ km h'

/-- Every k-mer of a truncation `S.take m` is a k-mer of `S`. -/
lemma cut_kmer_take_subset (S : Seq) (m k : Nat) :
    ∀ km ∈ cut_kmer (S.take m) k, km ∈ cut_kmer S k := by
  intro km hkm
  unfold cut_kmer at hkm ⊢
  rw [List.mem_map] at hkm
  obtain ⟨j, hj, rfl⟩ := hkm
  rw [List.mem_range] at hj
  rw [List.length_take] at hj
  rw [List.mem_map]
  refine ⟨j, ?_, ?_⟩
  · rw [List.mem_range]
    omega
  · rw [List.drop_take, List.take_take]
    congr 1
    omega

lemma cut_kmer_exists (T : Seq) (k : Nat) (hk : k ≤ T.length) :
    ∃ km, km ∈ cut_kmer T k := by
  apply List.exists_mem_of_length_pos
  unfold cut_kmer
  rw [List.length_map, List.length_range]
  omega

lemma uniqFirstAux_all_seen {α : Type} [DecidableEq α] :
    ∀ (l seen : List α), (∀ x ∈ l, x ∈ seen) → uniqFirstAux l seen = [] := by
  intro l
  induction l with
  | nil =>
    intro seen _
    rfl
  | cons a l ih =>
    intro seen h
    rw [uniqFirstAux, if_pos (h a (List.mem_cons_self _ _))]
    exact ih seen (fun x hx => h x (List.mem_cons_of_mem _ hx))

lemma uniqFirst_all_eq (i : Nat) :
    ∀ l : List Nat, l ≠ [] → (∀ x ∈ l, x = i) → uniqFirst l = [i] := by
  intro l hne hall
  obtain ⟨x, rest, rfl⟩ := List.exists_cons_of_ne_nil hne
  have hx : x = i := hall x (List.mem_cons_self _ _)
  subst hx
  rw [uniqFirst, uniqFirstAux, if_neg (List.not_mem_nil x)]
  rw [uniqFirstAux_all_seen rest ([] ++ [x])]
  intro y hy
  have := hall y (List.mem_cons_of_mem _ hy)
  subst this
  simp

lemma most_common_all_eq (i : Nat) (l : List Nat) (hne : l ≠ [])
    (hall : ∀ x ∈ l, x = i) : most_common 8 l = [i] := by
  unfold most_common
  rw [uniqFirst_all_eq i l hne hall]
  rfl

/-- C9 (amended): after inserting a sequence `S` under id `i` into an
*empty* index via `get_unique_kmer`, querying any truncation `S.take m` of
length at least `k` via `search_mates` returns a candidate list containing
`i` (indeed exactly `[i]`, as no other id is indexed).  Starting from a
non-empty index the claim fails: `i` can be crowded out of the 8-candidate
cut-off (see the counterexample). -/
theorem c9_amended (k : Nat) (S : Seq) (i m : Nat)
    (hk : k ≤ (S.take m).length) :
    i ∈ search_mates (get_unique_kmer [] S i k) (S.take m) k := by
  unfold search_mates
  set D := get_unique_kmer [] S i k with hD
  set F := (cut_kmer (S.take m) k).flatMap
    (fun kmer => match kdFind D kmer with
                 | some ids => ids
                 | none => []) with hF
  have hinv : ∀ kv ∈ D, kv.2 ≠ [] ∧ ∀ x ∈ kv.2, x = i := get_unique_kmer_all_eq S i k
  have hall : ∀ x ∈ F, x = i := by
    intro x hx
    rw [hF, List.mem_flatMap] at hx
    obtain ⟨km, _, hxin⟩ := hx
    rcases hfind : kdFind D km with _ | v
    · rw [hfind] at hxin
      exact absurd hxin (List.not_mem_nil x)
    · rw [hfind] at hxin
      exact (hinv (km, v) (kdFind_mem D km v hfind)).2 x hxin
  have hne : F ≠ [] := by
    obtain ⟨km0, hkm0⟩ := cut_kmer_exists (S.take m) k hk
    have hmem : km0 ∈ cut_kmer S k := cut_kmer_take_subset S m k km0 hkm0
    have hsome : (kdFind D km0).isSome := by
      rw [hD]
      unfold get_unique_kmer
      exact foldl_kdAdd_find_mem i (cut_kmer S k) [] km0 hmem
    rcases hfind : kdFind D km0 with _ | v
    · rw [hfind] at hsome
      exact absurd hsome (by simp)
    · have hv : v ≠ [] := (hinv (km0, v) (kdFind_mem D km0 v hfind)).1
      obtain ⟨x, hx⟩ := List.exists_mem_of_length_pos (List.length_pos_of_ne_nil hv)
      have hxF : x ∈ F := by
        rw [hF, List.mem_flatMap]
        refine ⟨km0, hkm0, ?_⟩
        rw [hfind]
        exact hx
      exact List.ne_nil_of_mem hxF
  rw [most_common_all_eq i F hne hall]
  exact List.mem_singleton.mpr rfl

/-- Witness for C9 (amended): insert `ACGT` under id 0 with k-mer size 2
into the empty index, query the truncation `ACG`. -/
theorem c9_amended_witness :
    2 ≤ ("ACGT".toList.take 3).length
    ∧ 0 ∈ search_mates (get_unique_kmer [] "ACGT".toList 0 2) ("ACGT".toList.take 3) 2 :=
  ⟨by decide, c9_amended 2 "ACGT".toList 0 3 (by decide)⟩

/-- C9 counterexample: with a non-empty starting index — eight other ids
each indexed twice under the only k-mer of `S = "A"` (k-mer size 1) —
inserting `S` under id 8 and then querying the full (hence truncated)
sequence returns the eight more frequent ids and drops id 8: the claim,
read over an arbitrary starting dictionary, is false. -/
theorem c9_counterexample :
    (8 : Nat) ∉ search_mates
      (get_unique_kmer [(['A'], [0, 0, 1, 1, 2, 2, 3, 3, 4, 4, 5, 5, 6, 6, 7, 7])]
        ['A'] 8 1)
      (['A'].take 1) 1 := by
  decide

/-! ## C2 and C10: the greedy clusterer -/

/-- Evaluation helper for `get_identity` on concrete alignments. -/
lemma gi_eval (a b : Seq) (k n : Nat)
    (hk : (a.zip b).countP (fun p => decide (p.1 = p.2)) = k) (hn : a.length = n) :
    get_identity (a, b) = (k : ℚ) / (n : ℚ) * 100 := by
  simp only [get_identity]
  rw [hk, hn]

/-- C2 counterexample: under an oracle aligning the amplicon `AAAAT`
perfectly against every representative, the pipeline on `AAAAA` (count
12), `TTTTT` (count 11), `AAAAT` (count 10) adds the count 10 to BOTH
clusters — the loop has no `break` — yielding abundances 22 and 21,
whereas the claim (add once, to the first qualifying cluster, then stop)
predicts 22 and 11. -/
theorem c2_counterexample :
    abundance_greedy_clustering alignCE linesC2 5 10 1 8
        = Except.ok [("AAAAA".toList, 22), ("TTTTT".toList, 21)]
      ∧ ([("AAAAA".toList, 22), ("TTTTT".toList, 21)] : List (Seq × Nat))
        ≠ [("AAAAA".toList, 22), ("TTTTT".toList, 11)] := by
  refine ⟨?_, by decide⟩
  have hchim : chimera_removal alignCE linesC2 5 10 1 8 =
      Except.ok [("AAAAA".toList, 12), ("TTTTT".toList, 11), ("AAAAT".toList, 10)] := rfl
  unfold abundance_greedy_clustering
  rw [hchim]
  dsimp only
  congr 1
  have qTA : ¬ (97 < get_identity (alignCE ['T','T','T','T','T'] ['A','A','A','A','A'])) := by
    have h : alignCE ['T','T','T','T','T'] ['A','A','A','A','A']
        = (['T','T','T','T','T'], ['A','A','A','A','A']) := rfl
    rw [h, gi_eval _ _ 0 5 (by decide) (by decide)]
    norm_num
  have qXA : 97 < get_identity (alignCE ['A','A','A','A','T'] ['A','A','A','A','A']) := by
    have h : alignCE ['A','A','A','A','T'] ['A','A','A','A','A']
        = (['A','A','A','A','T'], ['A','A','A','A','T']) := rfl
    rw [h, gi_eval _ _ 5 5 (by decide) (by decide)]
    norm_num
  have qXT : 97 < get_identity (alignCE ['A','A','A','A','T'] ['T','T','T','T','T']) := by
    have h : alignCE ['A','A','A','A','T'] ['T','T','T','T','T']
        = (['A','A','A','A','T'], ['A','A','A','A','T']) := rfl
    rw [h, gi_eval _ _ 5 5 (by decide) (by decide)]
    norm_num
  simp only [List.foldl_cons, List.foldl_nil]
  simp [greedyStep, qTA, qXA, qXT]

/-- C2 (amended): for every alignment oracle and every nonempty cluster
list, one clustering step adds the incoming amplicon's count once to
EVERY cluster whose representative aligns at identity above 97 — the scan
does not stop at the first qualifying cluster — leaves every other
cluster untouched, never alters a representative, and appends a new
cluster exactly when no existing cluster qualifies. -/
theorem c2_amended (align : Seq → Seq → Seq × Seq) (gc : List (Seq × Nat))
    (amp : Seq × Nat) (hne : gc ≠ []) :
    (∀ j, j < gc.length →
        (greedyStep align gc amp).getD j ([], 0)
          = ((gc.getD j ([], 0)).1,
             (gc.getD j ([], 0)).2
               + (if 97 < get_identity (align amp.1 (gc.getD j ([], 0)).1)
                  then amp.2 else 0)))
    ∧ ((∀ t ∈ gc, get_identity (align amp.1 t.1) ≤ 97)
        → greedyStep align gc amp = gc ++ [amp]) := by
  obtain ⟨hd, tl, rfl⟩ := List.exists_cons_of_ne_nil hne
  constructor
  · intro j hj
    have hj' : (hd :: tl)[j]? = some ((hd :: tl).getD j ([], 0)) := by
      rw [List.getD_eq_getElem?_getD, List.getElem?_eq_getElem hj]
      rfl
    rw [greedyStep]
    by_cases hany : (hd :: tl).any
        (fun tupple => decide (97 < get_identity (align amp.1 tupple.1))) = true
    · rw [if_pos hany, List.getD_eq_getElem?_getD, List.getElem?_map, hj']
      by_cases hq : 97 < get_identity (align amp.1 ((hd :: tl).getD j ([], 0)).1)
      · rw [if_pos hq]
        simp only [Option.map_some', Option.getD_some, if_pos hq]
      · rw [if_neg hq]
        simp only [Option.map_some', Option.getD_some, if_neg hq, Nat.add_zero]
    · rw [if_neg hany]
      have hmap : (hd :: tl).map (fun tupple =>
          if 97 < get_identity (align amp.1 tupple.1)
          then (tupple.1, tupple.2 + amp.2) else tupple) = hd :: tl := by
        have hid : ∀ t ∈ hd :: tl,
            (if 97 < get_identity (align amp.1 t.1)
             then (t.1, t.2 + amp.2) else t) = id t := by
          intro t ht
          have hnq : ¬ (97 < get_identity (align amp.1 t.1)) := by
            intro hq
            exact hany (List.any_eq_true.mpr ⟨t, ht, by simpa using hq⟩)
          rw [if_neg hnq]
          rfl
        rw [List.map_congr_left hid, List.map_id]
      rw [hmap]
      have hq : ¬ (97 < get_identity (align amp.1 ((hd :: tl).getD j ([], 0)).1)) := by
        intro hq
        refine hany (List.any_eq_true.mpr ⟨(hd :: tl).getD j ([], 0), ?_, by simpa using hq⟩)
        rw [List.getD_eq_getElem?_getD, List.getElem?_eq_getElem hj]
        exact List.getElem_mem hj
      rw [if_neg hq, Nat.add_zero, List.getD_eq_getElem?_getD,
        List.getElem?_append_left hj, hj']
      rfl
  · intro hall
    have hany : ¬ ((hd :: tl).any
        (fun tupple => decide (97 < get_identity (align amp.1 tupple.1))) = true) := by
      rw [List.any_eq_true]
      rintro ⟨t, ht, hq⟩
      have := hall t ht
      simp only [decide_eq_true_eq] at hq
      exact absurd hq (not_lt.mpr this)
    rw [greedyStep, if_neg hany]
    congr 1
    have hid : ∀ t ∈ hd :: tl,
        (if 97 < get_identity (align amp.1 t.1)
         then (t.1, t.2 + amp.2) else t) = id t := by
      intro t ht
      rw [if_neg (not_lt.mpr (hall t ht))]
      rfl
    rw [List.map_congr_left hid, List.map_id]

/-- Witness for C2 (amended) with the oracle `alignCE`, the two-cluster
state from the counterexample and the amplicon `AAAAT`. -/
theorem c2_amended_witness :
    (([("AAAAA".toList, 12), ("TTTTT".toList, 11)] : List (Seq × Nat)) ≠ [])
    ∧ ((∀ j, j < ([("AAAAA".toList, 12), ("TTTTT".toList, 11)] : List (Seq × Nat)).length →
        (greedyStep alignCE [("AAAAA".toList, 12), ("TTTTT".toList, 11)]
            ("AAAAT".toList, 10)).getD j ([], 0)
          = ((([("AAAAA".toList, 12), ("TTTTT".toList, 11)] : List (Seq × Nat)).getD
                j ([], 0)).1,
             (([("AAAAA".toList, 12), ("TTTTT".toList, 11)] : List (Seq × Nat)).getD
                j ([], 0)).2
               + (if 97 < get_identity (alignCE ("AAAAT".toList, 10).1
                    (([("AAAAA".toList, 12), ("TTTTT".toList, 11)] :
                      List (Seq × Nat)).getD j ([], 0)).1)
                  then ("AAAAT".toList, 10).2 else 0)))
      ∧ ((∀ t ∈ ([("AAAAA".toList, 12), ("TTTTT".toList, 11)] : List (Seq × Nat)),
            get_identity (alignCE ("AAAAT".toList, 10).1 t.1) ≤ 97)
          → greedyStep alignCE [("AAAAA".toList, 12), ("TTTTT".toList, 11)]
              ("AAAAT".toList, 10)
            = [("AAAAA".toList, 12), ("TTTTT".toList, 11)] ++ [("AAAAT".toList, 10)])) :=
  ⟨by decide,
    c2_amended alignCE [("AAAAA".toList, 12), ("TTTTT".toList, 11)]
      ("AAAAT".toList, 10) (by decide)⟩

lemma greedyStep_pairwise (align : Seq → Seq → Seq × Seq) (amp : Seq × Nat)
    (gc : List (Seq × Nat))
    (h : gc.Pairwise (fun a b => get_identity (align b.1 a.1) ≤ 97)) :
    (greedyStep align gc amp).Pairwise (fun a b => get_identity (align b.1 a.1) ≤ 97) := by
  cases gc with
  | nil => exact List.pairwise_singleton _ amp
  | cons hd tl =>
    rw [greedyStep]
    by_cases hany : (hd :: tl).any
        (fun tupple => decide (97 < get_identity (align amp.1 tupple.1))) = true
    · rw [if_pos hany]
      refine List.Pairwise.map _ (fun a b hab => ?_) h
      by_cases hqa : 97 < get_identity (align amp.1 a.1)
      · by_cases hqb : 97 < get_identity (align amp.1 b.1)
        · rw [if_pos hqa, if_pos hqb]
          exact hab
        · rw [if_pos hqa, if_neg hqb]
          exact hab
      · by_cases hqb : 97 < get_identity (align amp.1 b.1)
        · rw [if_neg hqa, if_pos hqb]
          exact hab
        · rw [if_neg hqa, if_neg hqb]
          exact hab
    · rw [if_neg hany]
      have hid : ∀ t ∈ hd :: tl,
          (if 97 < get_identity (align amp.1 t.1)
           then (t.1, t.2 + amp.2) else t) = id t := by
        intro t ht
        have hnq : ¬ (97 < get_identity (align amp.1 t.1)) := by
          intro hq
          exact hany (List.any_eq_true.mpr ⟨t, ht, by simpa using hq⟩)
        rw [if_neg hnq]
        rfl
      rw [List.map_congr_left hid, List.map_id]
      rw [List.pairwise_append]
      refine ⟨h, List.pairwise_singleton _ amp, ?_⟩
      intro a ha b hb
      rw [List.mem_singleton] at hb
      rw [hb]
      have hnq : ¬ (97 < get_identity (align amp.1 a.1)) := by
        intro hq
        exact hany (List.any_eq_true.mpr ⟨a, ha, by simpa using hq⟩)
      exact not_lt.mp hnq

lemma foldl_greedy_pairwise (align : Seq → Seq → Seq × Seq) :
    ∀ (amps gc : List (Seq × Nat)),
      gc.Pairwise (fun a b => get_identity (align b.1 a.1) ≤ 97) →
      (amps.foldl (greedyStep align) gc).Pairwise
        (fun a b => get_identity (align b.1 a.1) ≤ 97) := by
  intro amps
  induction amps with
  | nil =>
    intro gc h
    exact h
  | cons amp amps ih =>
    intro gc h
    rw [List.foldl_cons]
    exact ih _ (greedyStep_pairwise align amp gc h)

/-- C10: a new cluster is appended only when the flag survives the whole
scan, i.e. when the amplicon's identity is at most 97 against every
existing representative; count updates never touch the representative
component.  Hence in any OTU list returned by
`abundance_greedy_clustering`, every later representative had identity at
most 97 against each earlier representative. -/
theorem c10_otu_invariant (align : Seq → Seq → Seq × Seq)
    (lines : List (List Char)) (msl mc cs ks : Nat) (out : List (Seq × Nat))
    (h : abundance_greedy_clustering align lines msl mc cs ks = Except.ok out) :
    out.Pairwise (fun a b => get_identity (align b.1 a.1) ≤ 97) := by
  unfold abundance_greedy_clustering at h
  rcases hchim : chimera_removal align lines msl mc cs ks with e | amps
  · rw [hchim] at h
    simp at h
  · rw [hchim] at h
    dsimp only at h
    have h' : amps.foldl (greedyStep align) [] = out := by
      simpa using h
    subst h'
    exact foldl_greedy_pairwise align amps [] List.Pairwise.nil

/-- Witness for C10 on a single-OTU run. -/
theorem c10_otu_invariant_witness :
    abundance_greedy_clustering trivialAlign linesC10 5 10 1 8
        = Except.ok [("AAAAA".toList, 12)]
    ∧ List.Pairwise (fun a b : Seq × Nat => get_identity (trivialAlign b.1 a.1) ≤ 97)
        [("AAAAA".toList, 12)] :=
  ⟨rfl, c10_otu_invariant trivialAlign linesC10 5 10 1 8 [("AAAAA".toList, 12)] rfl⟩

end Agc
